import Mathlib

/-!
Verification of the `custom::map` container (map.h) and its underlying
red-black search-tree engine against the repository's specification.

The map layer (insert, find, at, operator[], erase, iterators' postfix
operators, move construction/assignment) is translated from `map.h`.
The pair element type, the tree engine (bst.h) and the tree-level
iterator are not part of the supplied sources; they are modelled from
the specification (§3, §4.1, §4.2), which prescribes a key-ordered pair,
a red-black balanced search tree with `keepUnique` insertion, three-case
erase, and an in-order cursor iterator.
-/

set_option autoImplicit false

namespace custom

/-- Modelled from the spec: the key–value pair element type (`pair.h` is not
among the supplied sources).  It holds a key `first` and a value `second`;
ordering and equality are by key alone (§6). -/
structure pair (K V : Type) where
  first : K
  second : V
  deriving Repr, DecidableEq

/-- Modelled from the spec: the key-only constructor used for building search
probes; the value is default-constructed (§6, §4.3). -/
def pair.ofKey {K V : Type} [Inhabited V] (k : K) : pair K V :=
  ⟨k, default⟩

/-- Modelled from the spec: the balance/color marker for red-black-style
balancing (§3 Data model, Node). -/
inductive Color where
  | red
  | black
  deriving Repr, DecidableEq

open Color

/-- Modelled from the spec: the tree of nodes owned by the balanced search
tree engine (`bst.h` is not among the supplied sources).  Each node holds one
pair element, a color marker and its two subtrees; the parent back-reference
of the C++ node is only used for traversal and is not needed in a functional
rendering (§3). -/
inductive BST (K V : Type) where
  | nil
  | node (c : Color) (l : BST K V) (x : pair K V) (r : BST K V)
  deriving Repr, DecidableEq

namespace BST

variable {K V : Type}

/-- In-order element sequence of the tree (§ Glossary: in-order traversal). -/
def toList : BST K V → List (pair K V)
  | nil => []
  | node _ l x r => toList l ++ x :: toList r

/-- Keys in in-order sequence. -/
def keys (t : BST K V) : List K :=
  (toList t).map pair.first

/-- Number of elements of the tree (the engine's element count). -/
def size : BST K V → Nat
  | nil => 0
  | node _ l _ r => size l + size r + 1

/-- Height of the tree: longest root-to-leaf node count. -/
def height : BST K V → Nat
  | nil => 0
  | node _ l _ r => max (height l) (height r) + 1

/-- Modelled from the spec: the binary-search-order invariant — for any node,
all keys in its left subtree compare less than its key and all keys in its
right subtree compare greater (§3). -/
def Ordered [LinearOrder K] : BST K V → Prop
  | nil => True
  | node _ l x r =>
      (∀ e ∈ toList l, e.first < x.first) ∧
      (∀ e ∈ toList r, x.first < e.first) ∧
      Ordered l ∧ Ordered r

instance [LinearOrder K] : (t : BST K V) → Decidable (Ordered t)
  | nil => isTrue trivial
  | node _ l _ r =>
      have := instDecidableOrdered l
      have := instDecidableOrdered r
      inferInstanceAs (Decidable (_ ∧ _ ∧ _ ∧ _))

/-- Modelled from the spec: post-insertion rebalancing fixup for a black node
whose left subtree may carry a red-red violation — rotations plus color
fixups restoring the balance invariant (§4.1). -/
def balanceL : BST K V → pair K V → BST K V → BST K V
  | node red (node red a x b) y c, z, d =>
      node red (node black a x b) y (node black c z d)
  | node red a x (node red b y c), z, d =>
      node red (node black a x b) y (node black c z d)
  | l, z, r => node black l z r

/-- Modelled from the spec: post-insertion rebalancing fixup for a black node
whose right subtree may carry a red-red violation (§4.1). -/
def balanceR : BST K V → pair K V → BST K V → BST K V
  | a, x, node red (node red b y c) z d =>
      node red (node black a x b) y (node black c z d)
  | a, x, node red b y (node red c z d) =>
      node red (node black a x b) y (node black c z d)
  | l, x, r => node black l x r

/-- Modelled from the spec: the insertion descent — compare the element's key
against node keys, attach at the correct leaf position (new nodes start red),
rebalance below each black node on the way up; an equal key is left in place
(`keepUnique`) (§4.1). -/
def ins [LinearOrder K] (x : pair K V) : BST K V → BST K V
  | nil => node red nil x nil
  | node red l y r =>
      if x.first < y.first then node red (ins x l) y r
      else if y.first < x.first then node red l y (ins x r)
      else node red l y r
  | node black l y r =>
      if x.first < y.first then balanceL (ins x l) y r
      else if y.first < x.first then balanceR l y (ins x r)
      else node black l y r

/-- Recolor the root black (the final fixup of a red-black insertion). -/
def setBlack : BST K V → BST K V
  | nil => nil
  | node _ l x r => node black l x r

/-- Modelled from the spec: `find(element)` — descend by key comparison and
return the matching node, or the end sentinel (here `none`) if no match
(§4.1).  The descent by a bare key. -/
def findKey [LinearOrder K] (k : K) : BST K V → Option (pair K V)
  | nil => none
  | node _ l y r =>
      if k < y.first then findKey k l
      else if y.first < k then findKey k r
      else some y

/-- Modelled from the spec: `find(element)` compares by the element's key
(§4.1, §6). -/
def find [LinearOrder K] (p : pair K V) (t : BST K V) : Option (pair K V) :=
  findKey p.first t

/-- Modelled from the spec: `insert(element, keepUnique)` with
`keepUnique = true`: if a node with an equal key exists, return that existing
node's element and a not-inserted flag, creating no duplicate and leaving the
tree untouched; otherwise attach a new node at the correct leaf position,
rebalance, and return the new element with an inserted flag (§4.1).  The
returned element stands for the node the returned tree iterator refers to. -/
def insert [LinearOrder K] (x : pair K V) (t : BST K V) :
    BST K V × pair K V × Bool :=
  match findKey x.first t with
  | some e => (t, e, false)
  | none => (setBlack (ins x t), x, true)

/-- Modelled from the spec: removal of the minimum node of a (sub)tree,
returning its element and the remaining tree; used for the in-order-successor
case of erase (§4.1). -/
def delMin : BST K V → Option (pair K V × BST K V)
  | nil => none
  | node c l x r =>
      match delMin l with
      | none => some (x, r)
      | some (m, l') => some (m, node c l' x r)

/-- Modelled from the spec: reattachment after removing a node — (a) leaf:
detach; (b) one child: promote the child; (c) two children: pull up the
in-order successor (the minimum of the right subtree) after removing it from
there (§4.1 erase). -/
def combine (c : Color) : BST K V → BST K V → BST K V
  | nil, r => r
  | l, nil => l
  | l, r =>
      match delMin r with
      | some (m, r') => node c l m r'
      | none => l

/-- Modelled from the spec: erase of the node holding key `k`, by the
three-case removal (§4.1).  The erase fixups of the engine restore balance by
rotations and recoloring, which leave the in-order element sequence — the
subject of the claims below — unchanged, so they are not reproduced here. -/
def del [LinearOrder K] (k : K) : BST K V → BST K V
  | nil => nil
  | node c l y r =>
      if k < y.first then node c (del k l) y r
      else if y.first < k then node c l y (del k r)
      else combine c l r

end BST

/-- Translated from the source: `custom::map` owns exactly one tree of
key-value pairs (`BST<pair<K, V>> bst`). -/
structure map (K V : Type) where
  bst : BST K V
  deriving Repr, DecidableEq

namespace map

variable {K V : Type}

/-- Translated from the source: `size()` is pure delegation to the tree. -/
def size (m : map K V) : Nat :=
  m.bst.size

/-- Translated from the source: `empty()` returns `size() == 0`. -/
def empty (m : map K V) : Bool :=
  m.size == 0

/-- In-order contents of the map. -/
def toList (m : map K V) : List (pair K V) :=
  m.bst.toList

/-- Translated from the source: `find(k)` builds a search pair from the key
alone and delegates to `bst.find`, wrapping the resulting tree iterator
(`none` plays the end iterator). -/
def find [LinearOrder K] [Inhabited V] (m : map K V) (k : K) :
    Option (pair K V) :=
  BST.find (pair.ofKey k) m.bst

/-- Translated from the source: `insert(pair)` delegates to the tree insert
with `keepUnique = true` and returns the (iterator, inserted?) result exactly
as the tree reports; the iterator component is rendered by the element of the
node it refers to.  The second component is the post-state of the map. -/
def insert [LinearOrder K] (m : map K V) (p : pair K V) :
    (pair K V × Bool) × map K V :=
  match BST.insert p m.bst with
  | (t', e, b) => ((e, b), ⟨t'⟩)

/-- Translated from the source: mutable `operator[](key)` constructs a pair
from the key alone, inserts it with `keepUnique = true` (a no-op when the key
is present) and returns the resulting node's value; the second component is
the post-state of the map. -/
def subscript [LinearOrder K] [Inhabited V] (m : map K V) (k : K) :
    V × map K V :=
  match BST.insert (pair.ofKey k) m.bst with
  | (t', e, _) => (e.second, ⟨t'⟩)

/-- Translated from the source: const `operator[](key)` builds a local search
pair, finds by key, and returns the stored value when found and the local
pair's freshly default-constructed value otherwise; being const it never
touches the tree, so the map passes through unchanged. -/
def subscriptConst [LinearOrder K] [Inhabited V] (m : map K V) (k : K) :
    V × map K V :=
  match BST.find (pair.ofKey k) m.bst with
  | some e => (e.second, m)
  | none => ((pair.ofKey k : pair K V).second, m)

/-- Translated from the source: `at(key)` finds by key; when found it returns
the stored value, otherwise it throws `std::out_of_range` (rendered `none`);
it only ever calls `find`, so the map passes through unchanged. -/
def atKey [LinearOrder K] [Inhabited V] (m : map K V) (k : K) :
    Option V × map K V :=
  match find m k with
  | some e => (some e.second, m)
  | none => (none, m)

/-- Translated from the source: `erase(key)` finds by key; when the iterator
is not end it erases through the iterator (tree erase of that node) and
returns 1, otherwise it returns 0 without touching the map. -/
def eraseKey [LinearOrder K] [Inhabited V] (m : map K V) (k : K) :
    Nat × map K V :=
  match find m k with
  | some _ => (1, ⟨BST.del k m.bst⟩)
  | none => (0, m)

/-- Translated from the source: the move constructor `map(map&& rhs)` move-
constructs the tree, which — per the spec's move semantics (§3 Tree) — steals
root and count and leaves the source empty.  Result: (destination, source
post-state). -/
def moveCtor (rhs : map K V) : map K V × map K V :=
  (⟨rhs.bst⟩, ⟨BST.nil⟩)

/-- Translated from the source: move assignment `operator=(map&& rhs)` clears
the destination and move-assigns the tree, leaving the source empty.
Result: (destination post-state, source post-state). -/
def moveAssign (lhs rhs : map K V) : map K V × map K V :=
  let cleared : map K V := ⟨BST.nil⟩
  (⟨rhs.bst⟩, ⟨BST.nil⟩)

/-- A map built by the public API: starting from the default-constructed
empty map, insert each element in turn (as the range/list constructors do). -/
def fromList [LinearOrder K] (ps : List (pair K V)) : map K V :=
  ps.foldl (fun m p => (m.insert p).2) ⟨BST.nil⟩

end map

/-- Modelled from the spec: a map iterator is a cursor into the tree's
in-order sequence — `operator++` moves to the in-order successor, the next
node of the in-order sequence, and `operator--` to the predecessor (§4.2,
Glossary); the end sentinel is the position one past the last element. -/
structure mapIterator (K V : Type) where
  t : BST K V
  pos : Nat
  deriving Repr, DecidableEq

namespace mapIterator

variable {K V : Type}

/-- Translated from the source: prefix `operator++` advances the wrapped tree
iterator to the in-order successor and returns itself. -/
def inc (i : mapIterator K V) : mapIterator K V :=
  ⟨i.t, i.pos + 1⟩

/-- Translated from the source: prefix `operator--` moves the wrapped tree
iterator to the in-order predecessor and returns itself. -/
def dec (i : mapIterator K V) : mapIterator K V :=
  ⟨i.t, i.pos - 1⟩

/-- Translated from the source: `operator*` dereferences the wrapped tree
iterator — the element of the node at the cursor (`none` when at end,
where dereferencing is undefined). -/
def deref (i : mapIterator K V) : Option (pair K V) :=
  (BST.toList i.t).get? i.pos

/-- Translated from the source: postfix `operator++(int)` saves a copy,
increments itself, and returns the saved copy.  Result: (returned iterator,
new state of the iterator). -/
def incPost (i : mapIterator K V) : mapIterator K V × mapIterator K V :=
  let temp := i
  (temp, i.inc)

/-- Translated from the source: postfix `operator--(int)` saves a copy and
decrements itself, but then returns `*this` — the already-decremented
iterator — rather than the saved copy.  Result: (returned iterator, new
state of the iterator). -/
def decPost (i : mapIterator K V) : mapIterator K V × mapIterator K V :=
  let temp := i
  (i.dec, i.dec)

/-- Collect the elements visited from a cursor until the end sentinel, using
the iterator increment — the `begin()`-to-`end()` loop. -/
def collect (i : mapIterator K V) : List (pair K V) :=
  if h : i.pos < (BST.toList i.t).length then
    (BST.toList i.t).get ⟨i.pos, h⟩ :: collect i.inc
  else []
termination_by (BST.toList i.t).length - i.pos
decreasing_by simp [inc]; omega

end mapIterator

/-- Translated from the source: `begin()` wraps the tree's begin — the
leftmost, minimum-key node, i.e. position 0 of the in-order sequence. -/
def map.begin {K V : Type} (m : map K V) : mapIterator K V :=
  ⟨m.bst, 0⟩

/-- Translated from the source: `end()` wraps the tree's end sentinel — one
past the last element of the in-order sequence. -/
def map.endIter {K V : Type} (m : map K V) : mapIterator K V :=
  ⟨m.bst, m.bst.size⟩

/-- Insertion of a pair into a key-sorted list, keeping the first element of
any equal key (the list-level rendering of `keepUnique` insertion); used to
state what the tree insertion does to the in-order sequence. -/
def listInsert {K V : Type} [LinearOrder K] (x : pair K V) :
    List (pair K V) → List (pair K V)
  | [] => [x]
  | y :: ys =>
      if x.first < y.first then x :: y :: ys
      else if y.first < x.first then y :: listInsert x ys
      else y :: ys

/-- Color of the root node (`nil` counts as black). -/
def BST.isRed {K V : Type} : BST K V → Color
  | .node red .. => red
  | _ => black

/-- Modelled from the spec: the red-black balance invariant — `Balanced t c n`
says the root has color `c`, every root-to-`nil` path carries exactly `n`
black nodes, and no red node has a red child (§3 balance invariant). -/
inductive BST.Balanced {K V : Type} : BST K V → Color → Nat → Prop where
  | nil : Balanced .nil black 0
  | red {l r : BST K V} {x : pair K V} {n : Nat} :
      Balanced l black n → Balanced r black n → Balanced (.node red l x r) red n
  | black {l r : BST K V} {x : pair K V} {c₁ c₂ : Color} {n : Nat} :
      Balanced l c₁ n → Balanced r c₂ n → Balanced (.node black l x r) black (n + 1)

/-- The transient weakening of the balance invariant produced by the
insertion descent: the tree is balanced, or (when `p` holds) its root is red
with balanced children of any colors — a single red-red violation at the
root. -/
inductive BST.RedRed {K V : Type} (p : Prop) : BST K V → Nat → Prop where
  | balanced {t : BST K V} {c : Color} {n : Nat} : Balanced t c n → RedRed p t n
  | redred {l r : BST K V} {x : pair K V} {c₁ c₂ : Color} {n : Nat} (hp : p) :
      Balanced l c₁ n → Balanced r c₂ n → RedRed p (.node red l x r) n

end custom

/-!  Basic facts about the in-order sequence. -/

namespace custom

namespace BST

variable {K V : Type}

@[simp] theorem toList_nil : (nil : BST K V).toList = [] := rfl

@[simp] theorem toList_node {c : Color} {l r : BST K V} {x : pair K V} :
    (node c l x r).toList = l.toList ++ x :: r.toList := rfl

theorem size_eq_length (t : BST K V) : t.size = t.toList.length := by
  induction t with
  | nil => rfl
  | node c l x r ihl ihr => simp [size, ihl, ihr]; omega

@[simp] theorem toList_setBlack (t : BST K V) : t.setBlack.toList = t.toList := by
  cases t <;> rfl

theorem toList_balanceL (l r : BST K V) (z : pair K V) :
    (balanceL l z r).toList = l.toList ++ z :: r.toList := by
  unfold balanceL
  split <;> simp

theorem toList_balanceR (l r : BST K V) (z : pair K V) :
    (balanceR l z r).toList = l.toList ++ z :: r.toList := by
  unfold balanceR
  split <;> simp

@[simp] theorem ordered_nil [LinearOrder K] : (nil : BST K V).Ordered := trivial

theorem ordered_node_iff [LinearOrder K] {c : Color} {l r : BST K V}
    {x : pair K V} :
    (node c l x r).Ordered ↔
      (∀ e ∈ toList l, e.first < x.first) ∧
      (∀ e ∈ toList r, x.first < e.first) ∧ Ordered l ∧ Ordered r :=
  Iff.rfl

theorem ordered_iff_pairwise [LinearOrder K] (t : BST K V) :
    t.Ordered ↔ List.Pairwise (· < ·) t.keys := by
  induction t with
  | nil => simp [keys]
  | node c l x r ihl ihr =>
      rw [ordered_node_iff]
      simp only [keys, toList_node, List.map_append, List.map_cons,
        List.pairwise_append, List.pairwise_cons]
      constructor
      · rintro ⟨hbl, hbr, hl, hr⟩
        rw [keys] at ihl ihr
        refine ⟨ihl.1 hl, ⟨?_, ihr.1 hr⟩, ?_⟩
        · intro b hb
          rcases List.mem_map.1 hb with ⟨e, he, hbe⟩
          rw [← hbe]
          exact hbr e he
        · intro a ha b hb
          rcases List.mem_map.1 ha with ⟨e, he, hae⟩
          rcases List.mem_cons.1 hb with hbx | hb'
          · rw [← hae, hbx]
            exact hbl e he
          · rcases List.mem_map.1 hb' with ⟨e', he', hbe⟩
            rw [← hae, ← hbe]
            exact (hbl e he).trans (hbr e' he')
      · rintro ⟨hpl, ⟨hxr, hpr⟩, hcross⟩
        rw [keys] at ihl ihr
        refine ⟨?_, ?_, ihl.2 hpl, ihr.2 hpr⟩
        · intro e he
          exact hcross _ (List.mem_map_of_mem pair.first he) _
            (List.mem_cons_self _ _)
        · intro e he
          exact hxr _ (List.mem_map_of_mem pair.first he)

end BST

/-!  The list-level behavior of `keepUnique` insertion. -/

section ListInsert

variable {K V : Type} [LinearOrder K]

theorem listInsert_append_of_lt {x y : pair K V} {B : List (pair K V)}
    (hxy : x.first < y.first) :
    ∀ A : List (pair K V), listInsert x (A ++ y :: B) = listInsert x A ++ y :: B
  | [] => by simp [listInsert, hxy]
  | z :: A => by
      by_cases h1 : x.first < z.first
      · simp [listInsert, h1]
      · by_cases h2 : z.first < x.first
        · simp [listInsert, h1, h2, listInsert_append_of_lt hxy A]
        · simp [listInsert, h1, h2]

theorem listInsert_append_of_gt {x y : pair K V} {B : List (pair K V)}
    (hyx : y.first < x.first) :
    ∀ A : List (pair K V), (∀ z ∈ A, z.first < x.first) →
      listInsert x (A ++ y :: B) = A ++ y :: listInsert x B
  | [] => by
      intro _
      simp [listInsert, asymm hyx, hyx]
  | z :: A => by
      intro hA
      have hz : z.first < x.first := hA z (List.mem_cons_self z A)
      have hrec := listInsert_append_of_gt (B := B) hyx A
        (fun w hw => hA w (List.mem_cons_of_mem z hw))
      simp [listInsert, asymm hz, hz, hrec]

theorem listInsert_append_of_eq {x y : pair K V} {B : List (pair K V)}
    (hxy : x.first = y.first) :
    ∀ A : List (pair K V), (∀ z ∈ A, z.first < x.first) →
      listInsert x (A ++ y :: B) = A ++ y :: B
  | [] => by
      intro _
      simp [listInsert, hxy]
  | z :: A => by
      intro hA
      have hz : z.first < x.first := hA z (List.mem_cons_self z A)
      have hrec := listInsert_append_of_eq (B := B) hxy A
        (fun w hw => hA w (List.mem_cons_of_mem z hw))
      simp [listInsert, asymm hz, hz, hrec]

theorem mem_of_mem_listInsert {x e : pair K V} :
    ∀ {L : List (pair K V)}, e ∈ listInsert x L → e ∈ L ∨ e = x
  | [], h => Or.inr (by simpa [listInsert] using h)
  | y :: ys, h => by
      by_cases h1 : x.first < y.first
      · simp only [listInsert, if_pos h1, List.mem_cons] at h
        rcases h with rfl | rfl | h
        · exact Or.inr rfl
        · exact Or.inl (List.mem_cons_self _ _)
        · exact Or.inl (List.mem_cons_of_mem _ h)
      · by_cases h2 : y.first < x.first
        · simp only [listInsert, if_neg h1, if_pos h2, List.mem_cons] at h
          rcases h with rfl | h
          · exact Or.inl (List.mem_cons_self _ _)
          · rcases mem_of_mem_listInsert h with h' | h'
            · exact Or.inl (List.mem_cons_of_mem _ h')
            · exact Or.inr h'
        · simp only [listInsert, if_neg h1, if_neg h2] at h
          exact Or.inl (by simpa using h)

theorem self_mem_listInsert {x : pair K V} :
    ∀ (L : List (pair K V)), (∀ e ∈ L, e.first ≠ x.first) → x ∈ listInsert x L
  | [], _ => by simp [listInsert]
  | y :: ys, h => by
      have hy : y.first ≠ x.first := h y (List.mem_cons_self y ys)
      by_cases h1 : x.first < y.first
      · simp [listInsert, h1]
      · have h2 : y.first < x.first := lt_of_le_of_ne (le_of_not_lt h1) hy
        have hrec := self_mem_listInsert ys
          (fun e he => h e (List.mem_cons_of_mem y he))
        simp only [listInsert, if_neg h1, if_pos h2, List.mem_cons]
        exact Or.inr hrec

theorem length_listInsert {x : pair K V} :
    ∀ (L : List (pair K V)), (∀ e ∈ L, e.first ≠ x.first) →
      (listInsert x L).length = L.length + 1
  | [], _ => rfl
  | y :: ys, h => by
      have hy : y.first ≠ x.first := h y (List.mem_cons_self y ys)
      by_cases h1 : x.first < y.first
      · simp [listInsert, h1]
      · have h2 : y.first < x.first := lt_of_le_of_ne (le_of_not_lt h1) hy
        have hrec := length_listInsert ys
          (fun e he => h e (List.mem_cons_of_mem y he))
        simp [listInsert, h1, h2, hrec]

theorem pairwise_listInsert {x : pair K V} :
    ∀ (L : List (pair K V)), List.Pairwise (· < ·) (L.map pair.first) →
      List.Pairwise (· < ·) ((listInsert x L).map pair.first)
  | [], _ => by simp [listInsert]
  | y :: ys, h => by
      simp only [List.map_cons, List.pairwise_cons] at h
      obtain ⟨hy, hys⟩ := h
      by_cases h1 : x.first < y.first
      · simp only [listInsert, if_pos h1, List.map_cons, List.pairwise_cons]
        refine ⟨?_, ?_, hys⟩
        · intro b hb
          rcases List.mem_cons.1 hb with rfl | hb'
          · exact h1
          · exact h1.trans (hy b hb')
        · exact hy
      · by_cases h2 : y.first < x.first
        · simp only [listInsert, if_neg h1, if_pos h2, List.map_cons,
            List.pairwise_cons]
          refine ⟨?_, pairwise_listInsert ys hys⟩
          intro b hb
          rcases List.mem_map.1 hb with ⟨e, he, hbe⟩
          rcases mem_of_mem_listInsert he with he' | he'
          · rw [← hbe]
            exact hy _ (List.mem_map_of_mem pair.first he')
          · rw [← hbe, he']
            exact h2
        · simp only [listInsert, if_neg h1, if_neg h2, List.map_cons,
            List.pairwise_cons]
          exact ⟨hy, hys⟩

end ListInsert

end custom

/-!  Correctness of the tree-level search and insertion. -/

namespace custom

namespace BST

variable {K V : Type}

theorem not_mem_keys {t : BST K V} {k : K} :
    k ∉ t.keys ↔ ∀ e ∈ t.toList, e.first ≠ k := by
  simp [keys]

theorem toList_ins [LinearOrder K] (x : pair K V) :
    ∀ {t : BST K V}, t.Ordered → (ins x t).toList = listInsert x t.toList := by
  intro t
  induction t with
  | nil => intro _; rfl
  | node c l y r ihl ihr =>
      intro h
      rw [ordered_node_iff] at h
      obtain ⟨hbl, hbr, hol, hor⟩ := h
      rcases lt_trichotomy x.first y.first with hlt | heq | hgt
      · have hA := listInsert_append_of_lt (B := r.toList) hlt l.toList
        cases c
        · simp only [ins, if_pos hlt, toList_node, ihl hol]
          rw [hA]
        · simp only [ins, if_pos hlt, toList_balanceL, toList_node, ihl hol]
          rw [hA]
      · have h1 : ¬ x.first < y.first := by rw [heq]; exact lt_irrefl _
        have h2 : ¬ y.first < x.first := by rw [heq]; exact lt_irrefl _
        have hbound : ∀ z ∈ l.toList, z.first < x.first :=
          fun z hz => heq ▸ hbl z hz
        have hA := listInsert_append_of_eq (B := r.toList) heq l.toList hbound
        cases c <;> simp only [ins, if_neg h1, if_neg h2, toList_node] <;>
          rw [hA]
      · have hbound : ∀ z ∈ l.toList, z.first < x.first :=
          fun z hz => (hbl z hz).trans hgt
        have hA := listInsert_append_of_gt (B := r.toList) hgt l.toList hbound
        cases c
        · simp only [ins, if_neg (asymm hgt), if_pos hgt, toList_node, ihr hor]
          rw [hA]
        · simp only [ins, if_neg (asymm hgt), if_pos hgt, toList_balanceR,
            toList_node, ihr hor]
          rw [hA]

theorem ordered_ins [LinearOrder K] (x : pair K V) {t : BST K V}
    (h : t.Ordered) : (ins x t).Ordered := by
  have hp := (ordered_iff_pairwise t).1 h
  rw [ordered_iff_pairwise]
  simp only [keys, toList_ins x h]
  exact pairwise_listInsert _ (by simpa [keys] using hp)

theorem ordered_setBlack [LinearOrder K] {t : BST K V} (h : t.Ordered) :
    t.setBlack.Ordered := by
  cases t
  · trivial
  · exact h

theorem find_some [LinearOrder K] {k : K} :
    ∀ {t : BST K V} {e : pair K V},
      findKey k t = some e → e ∈ t.toList ∧ e.first = k := by
  intro t
  induction t with
  | nil => intro e h; simp [findKey] at h
  | node c l y r ihl ihr =>
      intro e h
      by_cases h1 : k < y.first
      · simp only [findKey, if_pos h1] at h
        obtain ⟨hm, hk⟩ := ihl h
        exact ⟨by simp [hm], hk⟩
      · by_cases h2 : y.first < k
        · simp only [findKey, if_neg h1, if_pos h2] at h
          obtain ⟨hm, hk⟩ := ihr h
          exact ⟨by simp [hm], hk⟩
        · simp only [findKey, if_neg h1, if_neg h2, Option.some.injEq] at h
          subst h
          exact ⟨by simp, le_antisymm (le_of_not_lt h1) (le_of_not_lt h2)⟩

theorem find_eq_some_of_mem [LinearOrder K] {k : K} :
    ∀ {t : BST K V} {e : pair K V},
      t.Ordered → e ∈ t.toList → e.first = k → findKey k t = some e := by
  intro t
  induction t with
  | nil => intro e _ he _; simp at he
  | node c l y r ihl ihr =>
      intro e h he hk
      rw [ordered_node_iff] at h
      obtain ⟨hbl, hbr, hol, hor⟩ := h
      rw [toList_node] at he
      rcases List.mem_append.1 he with hel | her
      · have h1 : k < y.first := hk ▸ hbl e hel
        simp only [findKey, if_pos h1]
        exact ihl hol hel hk
      · rcases List.mem_cons.1 her with rfl | her'
        · have h1 : ¬ k < e.first := by rw [← hk]; exact lt_irrefl _
          have h2 : ¬ e.first < k := by rw [← hk]; exact lt_irrefl _
          simp [findKey, if_neg h1, if_neg h2]
        · have h2 : y.first < k := hk ▸ hbr e her'
          simp only [findKey, if_neg (asymm h2), if_pos h2]
          exact ihr hor her' hk

theorem find_eq_none [LinearOrder K] {k : K} {t : BST K V}
    (h : ∀ e ∈ t.toList, e.first ≠ k) : findKey k t = none := by
  cases hf : findKey k t with
  | none => rfl
  | some e => exact absurd (find_some hf).2 (h e (find_some hf).1)

theorem insert_dup [LinearOrder K] {t : BST K V} {e x : pair K V}
    (h : t.Ordered) (he : e ∈ t.toList) (hk : e.first = x.first) :
    insert x t = (t, e, false) := by
  simp only [insert, find_eq_some_of_mem h he hk]

theorem insert_fresh [LinearOrder K] {t : BST K V} {x : pair K V}
    (h : ∀ e ∈ t.toList, e.first ≠ x.first) :
    insert x t = (setBlack (ins x t), x, true) := by
  simp only [insert, find_eq_none h]

theorem toList_insert_fresh [LinearOrder K] {t : BST K V} {x : pair K V}
    (ho : t.Ordered) (h : ∀ e ∈ t.toList, e.first ≠ x.first) :
    (insert x t).1.toList = listInsert x t.toList := by
  rw [insert_fresh h]
  simp [toList_ins x ho]

theorem ordered_insert [LinearOrder K] {t : BST K V} (x : pair K V)
    (h : t.Ordered) : (insert x t).1.Ordered := by
  cases hf : findKey x.first t with
  | some e => simpa only [insert, hf] using h
  | none =>
      simp only [insert, hf]
      exact ordered_setBlack (ordered_ins x h)

end BST

end custom

/-!  Correctness of the tree-level erase. -/

namespace custom

namespace BST

variable {K V : Type}

theorem delMin_eq_none {t : BST K V} (h : delMin t = none) : t = nil := by
  cases t with
  | nil => rfl
  | node c l x r =>
      rw [delMin] at h
      cases h' : delMin l with
      | none => rw [h'] at h; simp at h
      | some p => rw [h'] at h; simp at h

theorem delMin_toList :
    ∀ {t t' : BST K V} {m : pair K V},
      delMin t = some (m, t') → t.toList = m :: t'.toList := by
  intro t
  induction t with
  | nil => intro t' m h; simp [delMin] at h
  | node c l x r ihl ihr =>
      intro t' m h
      rw [delMin] at h
      cases h' : delMin l with
      | none =>
          rw [h'] at h
          simp only [Option.some.injEq, Prod.mk.injEq] at h
          obtain ⟨rfl, rfl⟩ := h
          rw [toList_node, delMin_eq_none h', toList_nil, List.nil_append]
      | some p =>
          rcases p with ⟨m', l'⟩
          rw [h'] at h
          simp only [Option.some.injEq, Prod.mk.injEq] at h
          obtain ⟨rfl, rfl⟩ := h
          rw [toList_node, ihl h', toList_node, List.cons_append]

theorem toList_combine (c : Color) (l r : BST K V) :
    (combine c l r).toList = l.toList ++ r.toList := by
  cases l with
  | nil => simp [combine]
  | node cl ll xl rl =>
      cases r with
      | nil => simp [combine]
      | node cr lr xr rr =>
          cases h : delMin (node cr lr xr rr) with
          | none => exact absurd (delMin_eq_none h) (by simp)
          | some p =>
              rcases p with ⟨m, r''⟩
              simp only [combine]
              rw [h, delMin_toList h]
              simp

theorem toList_del [LinearOrder K] (k : K) :
    ∀ {t : BST K V}, t.Ordered →
      (del k t).toList = t.toList.filter (fun e => decide (e.first ≠ k)) := by
  intro t
  induction t with
  | nil => intro _; rfl
  | node c l y r ihl ihr =>
      intro h
      rw [ordered_node_iff] at h
      obtain ⟨hbl, hbr, hol, hor⟩ := h
      rcases lt_trichotomy k y.first with hlt | heq | hgt
      · have hy : (decide (y.first ≠ k)) = true := by
          simp [ne_of_gt hlt]
        have hr : r.toList.filter (fun e => decide (e.first ≠ k)) = r.toList :=
          List.filter_eq_self.mpr
            (fun e he => by simp [ne_of_gt (hlt.trans (hbr e he))])
        rw [del, if_pos hlt, toList_node, toList_node, ihl hol,
          List.filter_append, List.filter_cons_of_pos (p := fun (e : pair K V) => decide (e.first ≠ k)) hy, hr]
      · have h1 : ¬ k < y.first := by rw [heq]; exact lt_irrefl _
        have h2 : ¬ y.first < k := by rw [heq]; exact lt_irrefl _
        have hy : (decide (y.first ≠ k)) = false := by simp [heq]
        have hl : l.toList.filter (fun e => decide (e.first ≠ k)) = l.toList :=
          List.filter_eq_self.mpr
            (fun e he => by simp [ne_of_lt (heq ▸ hbl e he)])
        have hr : r.toList.filter (fun e => decide (e.first ≠ k)) = r.toList :=
          List.filter_eq_self.mpr
            (fun e he => by simp [ne_of_gt (heq ▸ hbr e he)])
        rw [del, if_neg h1, if_neg h2, toList_combine, toList_node,
          List.filter_append, List.filter_cons_of_neg (by simp [hy]), hl, hr]
      · have hy : (decide (y.first ≠ k)) = true := by
          simp [ne_of_lt hgt]
        have hl : l.toList.filter (fun e => decide (e.first ≠ k)) = l.toList :=
          List.filter_eq_self.mpr
            (fun e he => by simp [ne_of_lt ((hbl e he).trans hgt)])
        rw [del, if_neg (asymm hgt), if_pos hgt, toList_node, toList_node,
          ihr hor, List.filter_append, List.filter_cons_of_pos (p := fun (e : pair K V) => decide (e.first ≠ k)) hy, hl]
  
theorem ordered_del [LinearOrder K] (k : K) {t : BST K V} (h : t.Ordered) :
    (del k t).Ordered := by
  rw [ordered_iff_pairwise]
  have hp := (ordered_iff_pairwise t).1 h
  simp only [keys, toList_del k h]
  exact hp.sublist ((List.filter_sublist _).map pair.first)

theorem find_del_self [LinearOrder K] (k : K) {t : BST K V} (h : t.Ordered) :
    findKey k (del k t) = none := by
  refine find_eq_none ?_
  intro e he
  rw [toList_del k h] at he
  have := List.of_mem_filter he
  simpa using this

theorem nodup_keys [LinearOrder K] {t : BST K V} (h : t.Ordered) :
    t.keys.Nodup :=
  ((ordered_iff_pairwise t).1 h).imp ne_of_lt

end BST

/-- Auxiliary list fact: removing the elements with key `k` from a list that
contains exactly one such element shortens it by exactly one. -/
theorem length_filter_ne_of_mem {K V : Type} [DecidableEq K] :
    ∀ {L : List (pair K V)} {e : pair K V} {k : K},
      (L.map pair.first).Nodup → e ∈ L → e.first = k →
      (L.filter (fun a => decide (a.first ≠ k))).length + 1 = L.length := by
  intro L
  induction L with
  | nil => intro e k _ he _; simp at he
  | cons a L ih =>
      intro e k hn he hk
      simp only [List.map_cons, List.nodup_cons] at hn
      obtain ⟨ha, hn⟩ := hn
      by_cases hak : a.first = k
      · have hL : L.filter (fun b => decide (b.first ≠ k)) = L := by
          refine List.filter_eq_self.mpr ?_
          intro b hb
          have : b.first ≠ k := by
            intro hbk
            exact ha (by rw [hak, ← hbk]; exact List.mem_map_of_mem _ hb)
          simpa using this
        rw [List.filter_cons_of_neg (by simp [hak]), hL]
        simp
      · have hea : e ∈ L := by
          rcases List.mem_cons.1 he with rfl | h'
          · exact absurd hk hak
          · exact h'
        have := ih hn hea hk
        rw [List.filter_cons_of_pos (by simpa using hak)]
        simp only [List.length_cons]
        omega

end custom

/-!  The balance invariant: red-black insertion keeps the height logarithmic. -/

namespace custom

open Color

namespace BST

variable {K V : Type}

theorem isRed_of_balanced_black {t : BST K V} {n : Nat}
    (h : Balanced t black n) : isRed t = black := by
  cases h <;> rfl

theorem balanceL_eq {l r : BST K V} {v : pair K V} {c : Color} {n : Nat}
    (hl : Balanced l c n) : balanceL l v r = node black l v r := by
  unfold balanceL
  split
  · rename_i a x b y cc
    cases hl with
    | red h1 h2 => cases h1
  · rename_i a x b y cc
    cases hl with
    | red h1 h2 => cases h2
  · rfl

theorem balanceR_eq {l r : BST K V} {v : pair K V} {c : Color} {n : Nat}
    (hr : Balanced r c n) : balanceR l v r = node black l v r := by
  unfold balanceR
  split
  · rename_i b y cc z d
    cases hr with
    | red h1 h2 => cases h1
  · rename_i b y cc z d
    cases hr with
    | red h1 h2 => cases h2
  · rfl

theorem redred_balanceL {p : Prop} {l r : BST K V} {v : pair K V} {c : Color}
    {n : Nat} (hl : RedRed p l n) (hr : Balanced r c n) :
    ∃ c', Balanced (balanceL l v r) c' (n + 1) := by
  rcases hl with ⟨hb⟩ | ⟨hp, hA, hB⟩
  · rw [balanceL_eq hb]
    exact ⟨black, .black hb hr⟩
  · cases hA with
    | red ha1 ha2 =>
        refine ⟨red, ?_⟩
        simp only [balanceL]
        exact .red (.black ha1 ha2) (.black hB hr)
    | nil =>
        cases hB with
        | red hb1 hb2 =>
            refine ⟨red, ?_⟩
            simp only [balanceL]
            exact .red (.black .nil hb1) (.black hb2 hr)
        | nil =>
            refine ⟨black, ?_⟩
            simp only [balanceL]
            exact .black (.red .nil .nil) hr
    | black ha1 ha2 =>
        cases hB with
        | red hb1 hb2 =>
            refine ⟨red, ?_⟩
            simp only [balanceL]
            exact .red (.black (.black ha1 ha2) hb1) (.black hb2 hr)
        | black hb1 hb2 =>
            refine ⟨black, ?_⟩
            simp only [balanceL]
            exact .black (.red (.black ha1 ha2) (.black hb1 hb2)) hr

theorem redred_balanceR {p : Prop} {l r : BST K V} {v : pair K V} {c : Color}
    {n : Nat} (hl : Balanced l c n) (hr : RedRed p r n) :
    ∃ c', Balanced (balanceR l v r) c' (n + 1) := by
  rcases hr with ⟨hb⟩ | ⟨hp, hA, hB⟩
  · rw [balanceR_eq hb]
    exact ⟨black, .black hl hb⟩
  · cases hA with
    | red ha1 ha2 =>
        refine ⟨red, ?_⟩
        simp only [balanceR]
        exact .red (.black hl ha1) (.black ha2 hB)
    | nil =>
        cases hB with
        | red hb1 hb2 =>
            refine ⟨red, ?_⟩
            simp only [balanceR]
            exact .red (.black hl .nil) (.black hb1 hb2)
        | nil =>
            refine ⟨black, ?_⟩
            simp only [balanceR]
            exact .black hl (.red .nil .nil)
    | black ha1 ha2 =>
        cases hB with
        | red hb1 hb2 =>
            refine ⟨red, ?_⟩
            simp only [balanceR]
            exact .red (.black hl (.black ha1 ha2)) (.black hb1 hb2)
        | black hb1 hb2 =>
            refine ⟨black, ?_⟩
            simp only [balanceR]
            exact .black hl (.red (.black ha1 ha2) (.black hb1 hb2))

theorem balanced_of_redred {p : Prop} {t : BST K V} {n : Nat} (hf : ¬ p) :
    RedRed p t n → ∃ c, Balanced t c n
  | .balanced hb => ⟨_, hb⟩
  | .redred hp _ _ => absurd hp hf

theorem redred_ins [LinearOrder K] (x : pair K V) :
    ∀ {t : BST K V} {c : Color} {n : Nat}, Balanced t c n →
      RedRed (t.isRed = red) (ins x t) n := by
  intro t c n h
  induction h with
  | nil => exact .balanced (.red .nil .nil)
  | @red l r y n' hl hr ihl ihr =>
      show RedRed _ (ins x (node red l y r)) n'
      rw [ins]
      split
      · obtain ⟨c₁, hb⟩ := balanced_of_redred
          (by rw [isRed_of_balanced_black hl]; intro hc; exact nomatch hc) ihl
        exact .redred rfl hb hr
      · split
        · obtain ⟨c₂, hb⟩ := balanced_of_redred
            (by rw [isRed_of_balanced_black hr]; intro hc; exact nomatch hc) ihr
          exact .redred rfl hl hb
        · exact .balanced (.red hl hr)
  | @black l r y c₁ c₂ n' hl hr ihl ihr =>
      show RedRed _ (ins x (node black l y r)) (n' + 1)
      rw [ins]
      split
      · obtain ⟨c', hbal⟩ := redred_balanceL ihl hr
        exact .balanced hbal
      · split
        · obtain ⟨c', hbal⟩ := redred_balanceR hl ihr
          exact .balanced hbal
        · exact .balanced (.black hl hr)

theorem balanced_setBlack {p : Prop} {t : BST K V} {n : Nat}
    (h : RedRed p t n) : ∃ n', Balanced t.setBlack black n' := by
  rcases h with ⟨hb⟩ | ⟨_, hA, hB⟩
  · cases hb with
    | nil => exact ⟨0, .nil⟩
    | red hA hB => exact ⟨_, .black hA hB⟩
    | black hA hB => exact ⟨_, .black hA hB⟩
  · exact ⟨_, .black hA hB⟩

theorem balanced_insert [LinearOrder K] (x : pair K V) {t : BST K V} {n : Nat}
    (h : Balanced t black n) : ∃ n', Balanced (insert x t).1 black n' := by
  cases hf : findKey x.first t with
  | some e =>
      simp only [insert, hf]
      exact ⟨n, h⟩
  | none =>
      simp only [insert, hf]
      exact balanced_setBlack (redred_ins x h)

theorem height_le_two_mul {t : BST K V} {c : Color} {n : Nat}
    (h : Balanced t c n) :
    height t ≤ 2 * n + 1 ∧ (c = black → height t ≤ 2 * n) := by
  induction h with
  | nil => exact ⟨by simp [height], fun _ => by simp [height]⟩
  | @red l r y n' hl hr ihl ihr =>
      refine ⟨?_, fun hc => nomatch hc⟩
      have h1 := ihl.2 rfl
      have h2 := ihr.2 rfl
      have hm : max (height l) (height r) ≤ 2 * n' := Nat.max_le.mpr ⟨h1, h2⟩
      simp only [height]
      omega
  | @black l r y c₁ c₂ n' hl hr ihl ihr =>
      have h1 := ihl.1
      have h2 := ihr.1
      have hm : max (height l) (height r) ≤ 2 * n' + 1 :=
        Nat.max_le.mpr ⟨h1, h2⟩
      refine ⟨?_, fun _ => ?_⟩ <;> (simp only [height]; omega)

theorem size_lower {t : BST K V} {c : Color} {n : Nat} (h : Balanced t c n) :
    2 ^ n ≤ size t + 1 := by
  induction h with
  | nil => simp [size]
  | @red l r y n' hl hr ihl ihr =>
      simp only [size]
      omega
  | @black l r y c₁ c₂ n' hl hr ihl ihr =>
      have hpow : 2 ^ (n' + 1) = 2 ^ n' + 2 ^ n' := by ring
      simp only [size]
      omega

theorem height_le_log {t : BST K V} {n : Nat} (h : Balanced t black n) :
    height t ≤ 2 * Nat.log 2 (size t + 1) := by
  have h1 : height t ≤ 2 * n := (height_le_two_mul h).2 rfl
  have h2 : 2 ^ n ≤ size t + 1 := size_lower h
  have h3 : n ≤ Nat.log 2 (size t + 1) :=
    (Nat.pow_le_iff_le_log (by norm_num) (by omega)).1 h2
  omega

end BST

namespace map

variable {K V : Type}

theorem insert_snd_bst [LinearOrder K] (m : map K V) (p : pair K V) :
    ((m.insert p).2).bst = (BST.insert p m.bst).1 := by
  rcases hins : BST.insert p m.bst with ⟨t', e, b⟩
  simp [map.insert, hins]

theorem ordered_insert_map [LinearOrder K] (m : map K V) (p : pair K V)
    (h : m.bst.Ordered) : ((m.insert p).2).bst.Ordered := by
  rw [insert_snd_bst]
  exact BST.ordered_insert p h

theorem ordered_foldl [LinearOrder K] :
    ∀ (ps : List (pair K V)) (m : map K V), m.bst.Ordered →
      (ps.foldl (fun m p => (m.insert p).2) m).bst.Ordered
  | [], m, h => h
  | p :: ps, m, h =>
      ordered_foldl ps _ (ordered_insert_map m p h)

theorem ordered_fromList [LinearOrder K] (ps : List (pair K V)) :
    (fromList ps).bst.Ordered :=
  ordered_foldl ps ⟨BST.nil⟩ trivial

theorem balanced_foldl [LinearOrder K] :
    ∀ (ps : List (pair K V)) (m : map K V),
      (∃ n, BST.Balanced m.bst black n) →
      ∃ n, BST.Balanced ((ps.foldl (fun m p => (m.insert p).2) m)).bst black n
  | [], m, h => h
  | p :: ps, m, ⟨n, h⟩ =>
      balanced_foldl ps _ (by
        rw [insert_snd_bst]
        exact BST.balanced_insert p h)

theorem balanced_fromList [LinearOrder K] (ps : List (pair K V)) :
    ∃ n, BST.Balanced (fromList ps).bst black n :=
  balanced_foldl ps ⟨BST.nil⟩ ⟨0, .nil⟩

end map

end custom

/-!  The begin-to-end iterator walk visits the in-order sequence. -/

namespace custom

variable {K V : Type}

theorem collect_eq_drop (t : BST K V) (n : Nat) :
    mapIterator.collect ⟨t, n⟩ = (BST.toList t).drop n := by
  rw [mapIterator.collect]
  split
  · rename_i h
    have ih := collect_eq_drop t (n + 1)
    have hinc : mapIterator.inc (⟨t, n⟩ : mapIterator K V) = ⟨t, n + 1⟩ := rfl
    rw [hinc, ih]
    simp only [List.get_eq_getElem]
    exact (List.drop_eq_getElem_cons h).symm
  · rename_i h
    exact (List.drop_eq_nil_of_le (le_of_not_lt h)).symm
termination_by (BST.toList t).length - n
decreasing_by simp_all; omega

theorem collect_begin (m : map K V) :
    mapIterator.collect m.begin = m.toList := by
  rw [map.begin, collect_eq_drop, List.drop_zero]
  rfl

theorem sorted_toList_of_ordered [LinearOrder K] {t : BST K V}
    (h : t.Ordered) :
    List.Chain' (· < ·) (t.toList.map pair.first) := by
  have hp := (BST.ordered_iff_pairwise t).1 h
  simp only [BST.keys] at hp
  exact hp.chain'

end custom

/-!  Remaining support facts for the claims. -/

namespace custom

variable {K V : Type}

theorem length_listInsert_le [LinearOrder K] {x : pair K V} :
    ∀ L : List (pair K V), (listInsert x L).length ≤ L.length + 1
  | [] => le_refl _
  | y :: ys => by
      by_cases h1 : x.first < y.first
      · simp [listInsert, h1]
      · by_cases h2 : y.first < x.first
        · have := length_listInsert_le (x := x) ys
          simp only [listInsert, if_neg h1, if_pos h2, List.length_cons]
          omega
        · simp [listInsert, h1, h2]

theorem size_insert_le [LinearOrder K] (m : map K V) (p : pair K V)
    (h : m.bst.Ordered) : ((m.insert p).2).size ≤ m.size + 1 := by
  show ((m.insert p).2).bst.size ≤ m.bst.size + 1
  rw [map.insert_snd_bst]
  cases hf : BST.findKey p.first m.bst with
  | some e => simp only [BST.insert, hf]; omega
  | none =>
      simp only [BST.insert, hf, BST.size_eq_length, BST.toList_setBlack,
        BST.toList_ins p h]
      exact length_listInsert_le m.bst.toList

theorem size_foldl_le [LinearOrder K] :
    ∀ (ps : List (pair K V)) (m : map K V), m.bst.Ordered →
      (ps.foldl (fun m p => (m.insert p).2) m).size ≤ m.size + ps.length
  | [], m, _ => by simp [map.size]
  | p :: ps, m, h => by
      have h1 := size_foldl_le ps ((m.insert p).2) (map.ordered_insert_map m p h)
      have h2 := size_insert_le m p h
      simp only [List.foldl_cons, List.length_cons]
      omega

theorem size_fromList_le [LinearOrder K] (ps : List (pair K V)) :
    (map.fromList ps).size ≤ ps.length := by
  have h := size_foldl_le ps ⟨BST.nil⟩ trivial
  simpa [map.size, BST.size] using h

end custom

/-!  The claims. -/

namespace custom

variable {K V : Type}

/-- C1: for every key `k`, the mutable `operator[](k)` on a map where `k` is
absent inserts `k` with a default-constructed value (size grows by one) and
returns the stored value; on a map where `k` is present it returns the
existing stored value and the map (hence its size) does not change. -/
theorem subscript_access_or_create [LinearOrder K] [Inhabited V]
    (m : map K V) (k : K) (h : m.bst.Ordered) :
    (k ∉ m.bst.keys →
      (m.subscript k).1 = (default : V) ∧
      (m.subscript k).2.size = m.size + 1 ∧
      ((m.subscript k).2).find k = some ⟨k, (m.subscript k).1⟩) ∧
    (∀ e ∈ m.bst.toList, e.first = k →
      (m.subscript k).1 = e.second ∧ (m.subscript k).2 = m) := by
  constructor
  · intro hk
    have hfresh : ∀ e ∈ m.bst.toList, e.first ≠ (pair.ofKey k : pair K V).first := by
      simpa [pair.ofKey] using BST.not_mem_keys.1 hk
    have hins := BST.insert_fresh hfresh
    have hsub : m.subscript k =
        ((default : V), ⟨BST.setBlack (BST.ins (pair.ofKey k) m.bst)⟩) := by
      simp only [map.subscript]
      rw [hins]
      rfl
    have ho' : (BST.setBlack (BST.ins (pair.ofKey k) m.bst)).Ordered :=
      BST.ordered_setBlack (BST.ordered_ins _ h)
    refine ⟨by rw [hsub], ?_, ?_⟩
    · rw [hsub]
      show (BST.setBlack (BST.ins (pair.ofKey k) m.bst)).size = m.bst.size + 1
      rw [BST.size_eq_length, BST.toList_setBlack, BST.toList_ins _ h,
        length_listInsert _ hfresh, BST.size_eq_length]
    · rw [hsub]
      show BST.findKey k (BST.setBlack (BST.ins (pair.ofKey k) m.bst))
        = some ⟨k, (default : V)⟩
      refine BST.find_eq_some_of_mem ho' ?_ rfl
      rw [BST.toList_setBlack, BST.toList_ins _ h]
      exact self_mem_listInsert _ hfresh
  · intro e he hk
    have hins := BST.insert_dup h he
      (show e.first = (pair.ofKey k : pair K V).first from hk)
    have hsub : m.subscript k = (e.second, ⟨m.bst⟩) := by
      simp only [map.subscript]
      rw [hins]
    exact ⟨by rw [hsub], by rw [hsub]⟩

/-- Witness for C1 at a concrete map: key 5 is absent, key 2 is present. -/
theorem subscript_access_or_create_witness :
    (map.fromList [(⟨2, 20⟩ : pair Nat Nat), ⟨1, 10⟩, ⟨3, 30⟩]).bst.Ordered ∧
    ((5 ∉ (map.fromList [(⟨2, 20⟩ : pair Nat Nat), ⟨1, 10⟩, ⟨3, 30⟩]).bst.keys →
      ((map.fromList [(⟨2, 20⟩ : pair Nat Nat), ⟨1, 10⟩, ⟨3, 30⟩]).subscript 5).1 = (default : Nat) ∧
      ((map.fromList [(⟨2, 20⟩ : pair Nat Nat), ⟨1, 10⟩, ⟨3, 30⟩]).subscript 5).2.size
        = (map.fromList [(⟨2, 20⟩ : pair Nat Nat), ⟨1, 10⟩, ⟨3, 30⟩]).size + 1 ∧
      (((map.fromList [(⟨2, 20⟩ : pair Nat Nat), ⟨1, 10⟩, ⟨3, 30⟩]).subscript 5).2).find 5
        = some ⟨5, ((map.fromList [(⟨2, 20⟩ : pair Nat Nat), ⟨1, 10⟩, ⟨3, 30⟩]).subscript 5).1⟩) ∧
    (∀ e ∈ (map.fromList [(⟨2, 20⟩ : pair Nat Nat), ⟨1, 10⟩, ⟨3, 30⟩]).bst.toList, e.first = 5 →
      ((map.fromList [(⟨2, 20⟩ : pair Nat Nat), ⟨1, 10⟩, ⟨3, 30⟩]).subscript 5).1 = e.second ∧
      ((map.fromList [(⟨2, 20⟩ : pair Nat Nat), ⟨1, 10⟩, ⟨3, 30⟩]).subscript 5).2
        = map.fromList [(⟨2, 20⟩ : pair Nat Nat), ⟨1, 10⟩, ⟨3, 30⟩])) :=
  ⟨by decide, subscript_access_or_create _ 5 (by decide)⟩

/-- C2: `at(k)` returns the stored value when `k` is present; when `k` is
absent it fails with KeyNotFound (rendered `none`), never inserts, and the
map is unchanged after the failure. -/
theorem at_checked_access [LinearOrder K] [Inhabited V]
    (m : map K V) (k : K) (h : m.bst.Ordered) :
    (∀ e ∈ m.bst.toList, e.first = k → m.atKey k = (some e.second, m)) ∧
    (k ∉ m.bst.keys → m.atKey k = (none, m)) := by
  constructor
  · intro e he hk
    have hf : m.find k = some e := BST.find_eq_some_of_mem h he hk
    simp [map.atKey, hf]
  · intro hk
    have hf : m.find k = none := BST.find_eq_none (BST.not_mem_keys.1 hk)
    simp [map.atKey, hf]

/-- Witness for C2 at a concrete map: key 2 is present, key 5 is absent. -/
theorem at_checked_access_witness :
    (map.fromList [(⟨2, 20⟩ : pair Nat Nat), ⟨1, 10⟩, ⟨3, 30⟩]).bst.Ordered ∧
    ((∀ e ∈ (map.fromList [(⟨2, 20⟩ : pair Nat Nat), ⟨1, 10⟩, ⟨3, 30⟩]).bst.toList,
        e.first = 2 →
        (map.fromList [(⟨2, 20⟩ : pair Nat Nat), ⟨1, 10⟩, ⟨3, 30⟩]).atKey 2
          = (some e.second, map.fromList [(⟨2, 20⟩ : pair Nat Nat), ⟨1, 10⟩, ⟨3, 30⟩])) ∧
    (2 ∉ (map.fromList [(⟨2, 20⟩ : pair Nat Nat), ⟨1, 10⟩, ⟨3, 30⟩]).bst.keys →
      (map.fromList [(⟨2, 20⟩ : pair Nat Nat), ⟨1, 10⟩, ⟨3, 30⟩]).atKey 2
        = (none, map.fromList [(⟨2, 20⟩ : pair Nat Nat), ⟨1, 10⟩, ⟨3, 30⟩]))) :=
  ⟨by decide, at_checked_access _ 2 (by decide)⟩

/-- C3: inserting a pair whose key already exists leaves the map (and its
size) unchanged and returns the existing element with inserted = false; the
delegation is the `keepUnique` insertion of the tree. -/
theorem insert_existing_key_noop [LinearOrder K] (m : map K V)
    (p e : pair K V) (h : m.bst.Ordered) (he : e ∈ m.bst.toList)
    (hk : e.first = p.first) :
    m.insert p = ((e, false), m) ∧ ((m.insert p).2).size = m.size := by
  have hins := BST.insert_dup h he hk
  constructor
  · simp only [map.insert]
    rw [hins]
  · simp only [map.insert]
    rw [hins]

/-- Witness for C3 at a concrete map: inserting key 2 again with a new value
is a no-op that reports the stored element. -/
theorem insert_existing_key_noop_witness :
    (map.fromList [(⟨2, 20⟩ : pair Nat Nat), ⟨1, 10⟩, ⟨3, 30⟩]).bst.Ordered ∧
    (⟨2, 20⟩ : pair Nat Nat) ∈ (map.fromList [(⟨2, 20⟩ : pair Nat Nat), ⟨1, 10⟩, ⟨3, 30⟩]).bst.toList ∧
    (⟨2, 20⟩ : pair Nat Nat).first = (⟨2, 99⟩ : pair Nat Nat).first ∧
    ((map.fromList [(⟨2, 20⟩ : pair Nat Nat), ⟨1, 10⟩, ⟨3, 30⟩]).insert ⟨2, 99⟩
        = ((⟨2, 20⟩, false), map.fromList [(⟨2, 20⟩ : pair Nat Nat), ⟨1, 10⟩, ⟨3, 30⟩]) ∧
      (((map.fromList [(⟨2, 20⟩ : pair Nat Nat), ⟨1, 10⟩, ⟨3, 30⟩]).insert ⟨2, 99⟩).2).size
        = (map.fromList [(⟨2, 20⟩ : pair Nat Nat), ⟨1, 10⟩, ⟨3, 30⟩]).size) :=
  ⟨by decide, by decide, by decide,
    insert_existing_key_noop _ ⟨2, 99⟩ ⟨2, 20⟩ (by decide) (by decide) (by decide)⟩

/-- C4: a key inserted with value `v` is found (and dereferences to `v`) and
`at` yields `v`; after erasing the key, `find` is the end iterator and `at`
fails with KeyNotFound. -/
theorem insert_find_erase_roundtrip [LinearOrder K] [Inhabited V]
    (m : map K V) (k : K) (v : V) (h : m.bst.Ordered) (hk : k ∉ m.bst.keys) :
    ((m.insert ⟨k, v⟩).2).find k = some ⟨k, v⟩ ∧
    ((m.insert ⟨k, v⟩).2).atKey k = (some v, (m.insert ⟨k, v⟩).2) ∧
    ((((m.insert ⟨k, v⟩).2).eraseKey k).2).find k = none ∧
    ((((m.insert ⟨k, v⟩).2).eraseKey k).2).atKey k
      = (none, (((m.insert ⟨k, v⟩).2).eraseKey k).2) := by
  have hfresh : ∀ e ∈ m.bst.toList, e.first ≠ (⟨k, v⟩ : pair K V).first := by
    simpa using BST.not_mem_keys.1 hk
  have ho' : ((m.insert ⟨k, v⟩).2).bst.Ordered := map.ordered_insert_map m _ h
  have hmem : (⟨k, v⟩ : pair K V) ∈ ((m.insert ⟨k, v⟩).2).bst.toList := by
    rw [map.insert_snd_bst, BST.toList_insert_fresh h hfresh]
    exact self_mem_listInsert _ hfresh
  have hfind : ((m.insert ⟨k, v⟩).2).find k = some ⟨k, v⟩ :=
    BST.find_eq_some_of_mem ho' hmem rfl
  have her : ((m.insert ⟨k, v⟩).2).eraseKey k
      = (1, ⟨BST.del k ((m.insert ⟨k, v⟩).2).bst⟩) := by
    simp only [map.eraseKey]
    rw [hfind]
  have hfind2 : ((((m.insert ⟨k, v⟩).2).eraseKey k).2).find k = none := by
    rw [her]
    exact BST.find_del_self k ho'
  refine ⟨hfind, by simp [map.atKey, hfind], hfind2, by simp [map.atKey, hfind2]⟩

/-- Witness for C4 at a concrete map with the fresh key 5 and value 50. -/
theorem insert_find_erase_roundtrip_witness :
    (map.fromList [(⟨2, 20⟩ : pair Nat Nat), ⟨1, 10⟩, ⟨3, 30⟩]).bst.Ordered ∧
    (5 : Nat) ∉ (map.fromList [(⟨2, 20⟩ : pair Nat Nat), ⟨1, 10⟩, ⟨3, 30⟩]).bst.keys ∧
    ((((map.fromList [(⟨2, 20⟩ : pair Nat Nat), ⟨1, 10⟩, ⟨3, 30⟩]).insert ⟨5, 50⟩).2).find 5
        = some ⟨5, 50⟩ ∧
      (((map.fromList [(⟨2, 20⟩ : pair Nat Nat), ⟨1, 10⟩, ⟨3, 30⟩]).insert ⟨5, 50⟩).2).atKey 5
        = (some 50, ((map.fromList [(⟨2, 20⟩ : pair Nat Nat), ⟨1, 10⟩, ⟨3, 30⟩]).insert ⟨5, 50⟩).2) ∧
      (((((map.fromList [(⟨2, 20⟩ : pair Nat Nat), ⟨1, 10⟩, ⟨3, 30⟩]).insert ⟨5, 50⟩).2).eraseKey 5).2).find 5
        = none ∧
      (((((map.fromList [(⟨2, 20⟩ : pair Nat Nat), ⟨1, 10⟩, ⟨3, 30⟩]).insert ⟨5, 50⟩).2).eraseKey 5).2).atKey 5
        = (none, ((((map.fromList [(⟨2, 20⟩ : pair Nat Nat), ⟨1, 10⟩, ⟨3, 30⟩]).insert ⟨5, 50⟩).2).eraseKey 5).2)) :=
  ⟨by decide, by decide, insert_find_erase_roundtrip _ 5 50 (by decide) (by decide)⟩

/-- C5: the const-qualified `operator[](k)` never modifies the map: when `k`
is present it returns the stored value; when `k` is absent it returns a
freshly default-constructed value that is not inserted, the map passing
through unchanged in both cases. -/
theorem const_subscript_pure [LinearOrder K] [Inhabited V]
    (m : map K V) (k : K) (h : m.bst.Ordered) :
    (∀ e ∈ m.bst.toList, e.first = k → m.subscriptConst k = (e.second, m)) ∧
    (k ∉ m.bst.keys → m.subscriptConst k = ((default : V), m)) := by
  constructor
  · intro e he hk
    have hf : BST.find (pair.ofKey k) m.bst = some e :=
      BST.find_eq_some_of_mem h he hk
    simp [map.subscriptConst, hf]
  · intro hk
    have hf : BST.find (pair.ofKey k) m.bst = none :=
      BST.find_eq_none (BST.not_mem_keys.1 hk)
    simp only [map.subscriptConst, hf]
    rfl

/-- Witness for C5 at a concrete map and the absent key 7. -/
theorem const_subscript_pure_witness :
    (map.fromList [(⟨2, 20⟩ : pair Nat Nat), ⟨1, 10⟩, ⟨3, 30⟩]).bst.Ordered ∧
    ((∀ e ∈ (map.fromList [(⟨2, 20⟩ : pair Nat Nat), ⟨1, 10⟩, ⟨3, 30⟩]).bst.toList,
        e.first = 7 →
        (map.fromList [(⟨2, 20⟩ : pair Nat Nat), ⟨1, 10⟩, ⟨3, 30⟩]).subscriptConst 7
          = (e.second, map.fromList [(⟨2, 20⟩ : pair Nat Nat), ⟨1, 10⟩, ⟨3, 30⟩])) ∧
    (7 ∉ (map.fromList [(⟨2, 20⟩ : pair Nat Nat), ⟨1, 10⟩, ⟨3, 30⟩]).bst.keys →
      (map.fromList [(⟨2, 20⟩ : pair Nat Nat), ⟨1, 10⟩, ⟨3, 30⟩]).subscriptConst 7
        = ((default : Nat), map.fromList [(⟨2, 20⟩ : pair Nat Nat), ⟨1, 10⟩, ⟨3, 30⟩]))) :=
  ⟨by decide, const_subscript_pure _ 7 (by decide)⟩

/-- C6: for every sequence of inserted elements, iterating from `begin()` to
`end()` with the iterator's increment visits the elements in strictly
increasing key order. -/
theorem iteration_strictly_increasing [LinearOrder K] (ps : List (pair K V)) :
    List.Chain' (· < ·)
      ((mapIterator.collect (map.fromList ps).begin).map pair.first) := by
  rw [collect_begin]
  exact sorted_toList_of_ordered (map.ordered_fromList ps)

/-- C7: `erase(k)` returns 0 and leaves the map unchanged when `k` is absent;
when `k` is present it returns 1 and removes exactly the element with key `k`
(the size decreases by one). -/
theorem erase_by_key_correct [LinearOrder K] [Inhabited V]
    (m : map K V) (k : K) (h : m.bst.Ordered) :
    (k ∉ m.bst.keys → m.eraseKey k = (0, m)) ∧
    (∀ e ∈ m.bst.toList, e.first = k →
      (m.eraseKey k).1 = 1 ∧
      ((m.eraseKey k).2).toList
        = m.toList.filter (fun a => decide (a.first ≠ k)) ∧
      ((m.eraseKey k).2).size + 1 = m.size) := by
  constructor
  · intro hk
    have hf : m.find k = none := BST.find_eq_none (BST.not_mem_keys.1 hk)
    simp [map.eraseKey, hf]
  · intro e he hk
    have hf : m.find k = some e := BST.find_eq_some_of_mem h he hk
    have her : m.eraseKey k = (1, ⟨BST.del k m.bst⟩) := by
      simp only [map.eraseKey]
      rw [hf]
    refine ⟨by rw [her], ?_, ?_⟩
    · rw [her]
      exact BST.toList_del k h
    · rw [her]
      show (BST.del k m.bst).size + 1 = m.bst.size
      rw [BST.size_eq_length, BST.size_eq_length, BST.toList_del k h]
      exact length_filter_ne_of_mem (BST.nodup_keys h) he hk

/-- Witness for C7 at a concrete map: key 9 is absent, key 2 is present. -/
theorem erase_by_key_correct_witness :
    (map.fromList [(⟨2, 20⟩ : pair Nat Nat), ⟨1, 10⟩, ⟨3, 30⟩]).bst.Ordered ∧
    ((2 ∉ (map.fromList [(⟨2, 20⟩ : pair Nat Nat), ⟨1, 10⟩, ⟨3, 30⟩]).bst.keys →
      (map.fromList [(⟨2, 20⟩ : pair Nat Nat), ⟨1, 10⟩, ⟨3, 30⟩]).eraseKey 2
        = (0, map.fromList [(⟨2, 20⟩ : pair Nat Nat), ⟨1, 10⟩, ⟨3, 30⟩])) ∧
    (∀ e ∈ (map.fromList [(⟨2, 20⟩ : pair Nat Nat), ⟨1, 10⟩, ⟨3, 30⟩]).bst.toList,
      e.first = 2 →
      ((map.fromList [(⟨2, 20⟩ : pair Nat Nat), ⟨1, 10⟩, ⟨3, 30⟩]).eraseKey 2).1 = 1 ∧
      (((map.fromList [(⟨2, 20⟩ : pair Nat Nat), ⟨1, 10⟩, ⟨3, 30⟩]).eraseKey 2).2).toList
        = (map.fromList [(⟨2, 20⟩ : pair Nat Nat), ⟨1, 10⟩, ⟨3, 30⟩]).toList.filter
            (fun a => decide (a.first ≠ 2)) ∧
      (((map.fromList [(⟨2, 20⟩ : pair Nat Nat), ⟨1, 10⟩, ⟨3, 30⟩]).eraseKey 2).2).size + 1
        = (map.fromList [(⟨2, 20⟩ : pair Nat Nat), ⟨1, 10⟩, ⟨3, 30⟩]).size)) :=
  ⟨by decide, erase_by_key_correct _ 2 (by decide)⟩

/-- C8: move construction and move assignment transfer all elements to the
destination and leave the source empty. -/
theorem move_transfers_and_empties_source (m : map K V) :
    (map.moveCtor m).1.toList = m.toList ∧ (map.moveCtor m).2.size = 0 ∧
    ∀ lhs : map K V,
      (map.moveAssign lhs m).1.toList = m.toList ∧
      (map.moveAssign lhs m).2.size = 0 :=
  ⟨rfl, rfl, fun _ => ⟨rfl, rfl⟩⟩

/-- C9: for every insertion sequence (any order, sorted included), the height
of the tree built by the map's insertions is at most twice the base-2
logarithm of the element count plus one, and in particular at most twice the
base-2 logarithm of the number of insertions plus one: the height stays
logarithmic. -/
theorem insert_height_logarithmic [LinearOrder K] (ps : List (pair K V)) :
    BST.height (map.fromList ps).bst
      ≤ 2 * Nat.log 2 ((map.fromList ps).size + 1) ∧
    BST.height (map.fromList ps).bst ≤ 2 * Nat.log 2 (ps.length + 1) := by
  obtain ⟨n, hbal⟩ := map.balanced_fromList ps
  have h1 : BST.height (map.fromList ps).bst
      ≤ 2 * Nat.log 2 ((map.fromList ps).size + 1) := BST.height_le_log hbal
  refine ⟨h1, le_trans h1 ?_⟩
  have hsz := size_fromList_le ps
  have := Nat.log_mono_right (b := 2) (by omega :
    (map.fromList ps).size + 1 ≤ ps.length + 1)
  omega

/-- C10: the postfix decrement returns the already-decremented iterator (the
in-order predecessor), behaving like the prefix decrement, while the postfix
increment returns the iterator at the original position. -/
theorem iterator_post_increment_decrement (i : mapIterator K V)
    (h : 0 < i.pos) :
    (i.decPost.1 = i.dec ∧ i.decPost.2 = i.dec ∧ i.decPost.1.pos + 1 = i.pos ∧
      i.decPost.1.deref = (BST.toList i.t).get? (i.pos - 1)) ∧
    (i.incPost.1 = i ∧ i.incPost.2 = i.inc ∧
      i.incPost.1.deref = (BST.toList i.t).get? i.pos) := by
  refine ⟨⟨rfl, rfl, ?_, rfl⟩, rfl, rfl, rfl⟩
  show i.pos - 1 + 1 = i.pos
  omega

/-- Witness for C10 at a concrete iterator standing at position 1 of a
two-element map. -/
theorem iterator_post_increment_decrement_witness :
    0 < (⟨(map.fromList [(⟨1, 10⟩ : pair Nat Nat), ⟨2, 20⟩]).bst, 1⟩ : mapIterator Nat Nat).pos ∧
    (((⟨(map.fromList [(⟨1, 10⟩ : pair Nat Nat), ⟨2, 20⟩]).bst, 1⟩ : mapIterator Nat Nat).decPost.1
        = (⟨(map.fromList [(⟨1, 10⟩ : pair Nat Nat), ⟨2, 20⟩]).bst, 1⟩ : mapIterator Nat Nat).dec ∧
      (⟨(map.fromList [(⟨1, 10⟩ : pair Nat Nat), ⟨2, 20⟩]).bst, 1⟩ : mapIterator Nat Nat).decPost.2
        = (⟨(map.fromList [(⟨1, 10⟩ : pair Nat Nat), ⟨2, 20⟩]).bst, 1⟩ : mapIterator Nat Nat).dec ∧
      (⟨(map.fromList [(⟨1, 10⟩ : pair Nat Nat), ⟨2, 20⟩]).bst, 1⟩ : mapIterator Nat Nat).decPost.1.pos + 1
        = (⟨(map.fromList [(⟨1, 10⟩ : pair Nat Nat), ⟨2, 20⟩]).bst, 1⟩ : mapIterator Nat Nat).pos ∧
      (⟨(map.fromList [(⟨1, 10⟩ : pair Nat Nat), ⟨2, 20⟩]).bst, 1⟩ : mapIterator Nat Nat).decPost.1.deref
        = (BST.toList (⟨(map.fromList [(⟨1, 10⟩ : pair Nat Nat), ⟨2, 20⟩]).bst, 1⟩ : mapIterator Nat Nat).t).get?
            ((⟨(map.fromList [(⟨1, 10⟩ : pair Nat Nat), ⟨2, 20⟩]).bst, 1⟩ : mapIterator Nat Nat).pos - 1)) ∧
    ((⟨(map.fromList [(⟨1, 10⟩ : pair Nat Nat), ⟨2, 20⟩]).bst, 1⟩ : mapIterator Nat Nat).incPost.1
        = (⟨(map.fromList [(⟨1, 10⟩ : pair Nat Nat), ⟨2, 20⟩]).bst, 1⟩ : mapIterator Nat Nat) ∧
      (⟨(map.fromList [(⟨1, 10⟩ : pair Nat Nat), ⟨2, 20⟩]).bst, 1⟩ : mapIterator Nat Nat).incPost.2
        = (⟨(map.fromList [(⟨1, 10⟩ : pair Nat Nat), ⟨2, 20⟩]).bst, 1⟩ : mapIterator Nat Nat).inc ∧
      (⟨(map.fromList [(⟨1, 10⟩ : pair Nat Nat), ⟨2, 20⟩]).bst, 1⟩ : mapIterator Nat Nat).incPost.1.deref
        = (BST.toList (⟨(map.fromList [(⟨1, 10⟩ : pair Nat Nat), ⟨2, 20⟩]).bst, 1⟩ : mapIterator Nat Nat).t).get?
            (⟨(map.fromList [(⟨1, 10⟩ : pair Nat Nat), ⟨2, 20⟩]).bst, 1⟩ : mapIterator Nat Nat).pos)) :=
  ⟨by decide, iterator_post_increment_decrement _ (by decide)⟩

end custom
